import Mathlib

/-!
Verification of the syncer repository's matching and reconciliation engine.

Strings are modelled as `List Char` (`Str`).  The character-class functions
model the ASCII fragment of Python's `str.lower`, of the regex classes `\w`
(word characters: alphanumerics plus underscore) and `\s` (whitespace), which
is the fragment exercised by the track metadata the engine compares.
-/

namespace Syncer

/-- Strings are modelled as lists of characters. -/
abbrev Str := List Char

/-- ASCII model of the regex class `\w` used in `re.sub(r"[^\w\s]", " ", ...)`
(`tidal_client.py`, `normalize`): digits, letters, and the underscore. -/
def isWordChar (c : Char) : Bool :=
  decide ((48 ≤ c.toNat ∧ c.toNat ≤ 57) ∨ (65 ≤ c.toNat ∧ c.toNat ≤ 90) ∨
    (97 ≤ c.toNat ∧ c.toNat ≤ 122) ∨ c.toNat = 95)

/-- ASCII model of the regex class `\s` / `str.split` whitespace:
space, tab, newline, carriage return, vertical tab, form feed. -/
def isSpaceChar (c : Char) : Bool :=
  decide (c.toNat = 32 ∨ c.toNat = 9 ∨ c.toNat = 10 ∨ c.toNat = 13 ∨
    c.toNat = 11 ∨ c.toNat = 12)

/-- ASCII model of Python's `str.lower` on one character. -/
def lowerChar (c : Char) : Char :=
  if 65 ≤ c.toNat ∧ c.toNat ≤ 90 then Char.ofNat (c.toNat + 32) else c

/-- `text.lower()` over the whole string. -/
def lowerStr (s : Str) : Str := s.map lowerChar

/-- One character of `re.sub(r"[^\w\s]", " ", text)`: a character that is
neither a word character nor whitespace becomes a space. -/
def replaceChar (c : Char) : Char :=
  if isWordChar c || isSpaceChar c then c else ' '

/-- `re.sub(r"[^\w\s]", " ", text)` over the whole string. -/
def replaceSpecial (s : Str) : Str := s.map replaceChar

/-- Accumulator-based splitting on whitespace runs, dropping empty pieces:
the model of Python's `text.split()`.  `acc` holds the characters of the
word currently being read, in reverse. -/
def splitWsAux : List Char → List Char → List (List Char)
  | [], acc => if acc.isEmpty then [] else [acc.reverse]
  | c :: cs, acc =>
    if isSpaceChar c then
      if acc.isEmpty then splitWsAux cs [] else acc.reverse :: splitWsAux cs []
    else splitWsAux cs (c :: acc)

/-- Python's `text.split()`: split on runs of whitespace, no empty words. -/
def splitWs (l : List Char) : List (List Char) := splitWsAux l []

/-- Python's `" ".join(words)`. -/
def joinWords : List (List Char) → List Char
  | [] => []
  | [w] => w
  | w :: ws => w ++ ' ' :: joinWords ws

/-- `normalize` from `tidal_client.py`:
`text = re.sub(r"[^\w\s]", " ", text.lower()); return " ".join(text.split())`. -/
def normalize (s : Str) : Str :=
  joinWords (splitWs (replaceSpecial (lowerStr s)))

/-- `normalize_for_compare` from `service.py`; its body is identical to
`normalize` in `tidal_client.py`. -/
def normalizeForCompare (s : Str) : Str :=
  joinWords (splitWs (replaceSpecial (lowerStr s)))

/-- `make_track_key` from `tidal_client.py`:
`f"{normalize(artist)}:{normalize(title)}"`. -/
def makeTrackKey (artist title : Str) : Str :=
  normalize artist ++ ':' :: normalize title

/-- `words_match` from `tidal_client.py`: the main words of `needle` must
cover at least `WORDS_MATCH_THRESHOLD = 0.5` of the needle's word set.
`set(...)` is modelled by `List.dedup`; `len(matches) >= len(needle_words) * 0.5`
is the exact integer comparison `2 * |matches| ≥ |needle_words|`. -/
def wordsMatch (needle haystack : Str) : Bool :=
  let needleWords := (splitWs (normalize needle)).dedup
  let haystackWords := (splitWs (normalize haystack)).dedup
  if needleWords.isEmpty then false
  else 2 * (needleWords.filter (fun w => haystackWords.contains w)).length ≥
    needleWords.length

/-- The match tier assigned by `TidalClient._search_with_query`. -/
inductive MatchType where
  | EXACT
  | FUZZY
  | TITLE_ONLY
deriving DecidableEq

/-- A source track (`models.py`, `Track`). -/
structure Track where
  title : Str
  artist : Str
  album : Option Str := none
  durationSec : Option Nat := none
deriving DecidableEq

/-- A Tidal search candidate as consumed by `_search_with_query`:
`result.artist` may be absent (`None`), as may `result.name`. -/
structure TidalTrack where
  id : Int
  artistName : Option Str
  name : Option Str
  duration : Option Nat := none
deriving DecidableEq

/-- `SearchResult` from `tidal_client.py`. -/
structure SearchResult where
  track : TidalTrack
  matchType : MatchType
deriving DecidableEq

/-- `result.artist.name if result.artist else ""`. -/
def effArtist (r : TidalTrack) : Str := r.artistName.getD []

/-- `result.name if result.name else ""`. -/
def effTitle (r : TidalTrack) : Str := r.name.getD []

/-- Python's substring test `needle in hay` on strings. -/
def isSubstrOf : Str → Str → Bool
  | needle, [] => needle.isEmpty
  | needle, c :: rest => needle.isPrefixOf (c :: rest) || isSubstrOf needle rest

/-- The exact-pass criterion of `_search_with_query`: the mutual-substring
relation on normalized artists and on normalized titles. -/
def exactPass (t : Track) (r : TidalTrack) : Bool :=
  (isSubstrOf (normalize t.artist) (normalize (effArtist r)) ||
    isSubstrOf (normalize (effArtist r)) (normalize t.artist)) &&
  (isSubstrOf (normalize t.title) (normalize (effTitle r)) ||
    isSubstrOf (normalize (effTitle r)) (normalize t.title))

/-- The fuzzy-pass criterion of `_search_with_query`:
`words_match(track.title, result_title) and words_match(track.artist, result_artist)`. -/
def fuzzyPass (t : Track) (r : TidalTrack) : Bool :=
  wordsMatch t.title (effTitle r) && wordsMatch t.artist (effArtist r)

/-- The title-only-pass criterion of `_search_with_query`:
`normalize(track.title) == normalize(result_title)`. -/
def titlePass (t : Track) (r : TidalTrack) : Bool :=
  normalize t.title == normalize (effTitle r)

/-- The matching part of `TidalClient._search_with_query` (after the remote
call returned the candidate list): three ordered passes over the candidate
list, the first matching candidate of a pass winning, the fuzzy and
title-only passes skipped when `exact_only` is set. -/
def findBestMatch (t : Track) (results : List TidalTrack) (exactOnly : Bool) :
    Option SearchResult :=
  if results.isEmpty then none
  else
    match results.find? (exactPass t) with
    | some r => some ⟨r, MatchType.EXACT⟩
    | none =>
      if exactOnly then none
      else
        match results.find? (fuzzyPass t) with
        | some r => some ⟨r, MatchType.FUZZY⟩
        | none =>
          match results.find? (titlePass t) with
          | some r => some ⟨r, MatchType.TITLE_ONLY⟩
          | none => none

/-- Error raised by a provider call (`requests`/`tidalapi` exceptions are
not inspected by the code beyond being caught, so one constructor). -/
inductive ProviderError where
  | err
deriving DecidableEq

/-- The retry loop of `retry_with_backoff` (`retry.py`), starting at attempt
number `attempt` with `remaining` attempts left.  A successful attempt
returns its value; a failing attempt returns `none` when it was the last one
(`if attempt == max_attempts: return None`) and otherwise sleeps (the backoff
delay does not affect the returned value) and retries. -/
def retryFrom {α : Type} (f : Nat → Except ProviderError α) :
    Nat → Nat → Option α
  | _, 0 => none
  | attempt, r + 1 =>
    match f attempt with
    | Except.ok v => some v
    | Except.error _ => if r = 0 then none else retryFrom f (attempt + 1) r

/-- `retry_with_backoff(max_attempts=...)` applied to a function whose
attempt number `i` behaves as `f i`: attempts are numbered `1..maxAttempts`. -/
def retryWithBackoff {α : Type} (maxAttempts : Nat)
    (f : Nat → Except ProviderError α) : Option α :=
  retryFrom f 1 maxAttempts

/-- The decorated `_search_with_query` as seen by its caller: Python returns
`None` both when the retry budget is exhausted and when the search succeeded
with no acceptable candidate, so the two layers of optionality collapse. -/
def searchWithQueryRetried (attempts : Nat → Except ProviderError (Option SearchResult)) :
    Option SearchResult :=
  match retryWithBackoff 3 attempts with
  | none => none
  | some r => r

/-- `MatchQuality` from `service.py`. -/
inductive MatchQuality where
  | GOOD
  | MEDIUM
  | BAD
deriving DecidableEq

/-- `artist_similarity(artist1, artist2) >= ARTIST_SIMILARITY_THRESHOLD`
from `service.py`: the Jaccard similarity of the normalized word sets is
`0.0` when either set is empty (never reaching the `0.5` threshold), and
`|intersection| / |union|` otherwise.  The float comparison
`inter/union >= 0.5` is exact at these magnitudes and is modelled by the
equivalent integer comparison `2 * inter ≥ union`. -/
def artistSimilarityGeHalf (artist1 artist2 : Str) : Bool :=
  let a1 := (splitWs (normalizeForCompare artist1)).dedup
  let a2 := (splitWs (normalizeForCompare artist2)).dedup
  if a1.isEmpty || a2.isEmpty then false
  else
    let inter := (a1.filter (fun w => a2.contains w)).length
    let union := (a1 ++ a2.filter (fun w => !a1.contains w)).length
    2 * inter ≥ union

/-- `classify_match` from `service.py` with
`ARTIST_SIMILARITY_THRESHOLD = 0.5`. -/
def classifyMatch (original : Track) (foundArtist foundTitle : Str) :
    MatchQuality :=
  if artistSimilarityGeHalf original.artist foundArtist then MatchQuality.GOOD
  else
    let origTitle := normalizeForCompare original.title
    let foundTitleNorm := normalizeForCompare foundTitle
    if origTitle == foundTitleNorm || isSubstrOf origTitle foundTitleNorm ||
        isSubstrOf foundTitleNorm origTitle then
      MatchQuality.MEDIUM
    else MatchQuality.BAD

/-- `FuzzyMatch` from `service.py`. -/
structure FuzzyMatch where
  index : Nat
  original : Track
  foundArtist : Str
  foundTitle : Str
  tidalId : Int
  quality : MatchQuality := MatchQuality.MEDIUM
  foundDurationSec : Option Nat := none
deriving DecidableEq

/-- `MatchStats` from `models.py`. -/
structure MatchStats where
  exact : Nat := 0
  fuzzyGood : Nat := 0
  fuzzyMedium : Nat := 0
  fuzzyBad : Nat := 0
deriving DecidableEq

/-- `SyncResult` from `models.py` (fields the engine fills in). -/
structure SyncResult where
  playlistName : Str
  totalTracks : Nat
  foundTracks : Nat
  notFoundTracks : List Track
  skippedTracks : Nat := 0
  isDelta : Bool := false
  matchStats : Option MatchStats := none
  likedTracks : Nat := 0
  removedTracks : Nat := 0
deriving DecidableEq

/-- `SyncResult.synced_tracks`: `skipped_tracks + found_tracks`. -/
def SyncResult.syncedTracks (r : SyncResult) : Nat :=
  r.skippedTracks + r.foundTracks

/-- The per-outcome buckets built by the partition loop of
`SyncService.sync_playlist` (`service.py` lines 150–188). -/
structure PartitionOut where
  foundIds : List Int
  fuzzy : List FuzzyMatch
  notFound : List Track
  skipped : Nat
  exactCount : Nat
deriving DecidableEq

/-- The partition loop of `sync_playlist`: for each `(track, result)` pair
(enumerated from `idx`), a found candidate whose recomputed key is in
`existingKeys` bumps the skip counter, an `EXACT` result is auto-accepted,
any other found result becomes a `FuzzyMatch` for review, and a missing
result goes to the not-found list.  `found_artist`/`found_title` default to
`"?"` when the candidate lacks them. -/
def partitionResults (existingKeys : List Str) :
    Nat → List (Track × Option SearchResult) → PartitionOut
  | _, [] => ⟨[], [], [], 0, 0⟩
  | idx, (t, none) :: rest =>
    let p := partitionResults existingKeys (idx + 1) rest
    { p with notFound := t :: p.notFound }
  | idx, (t, some res) :: rest =>
    let p := partitionResults existingKeys (idx + 1) rest
    let tt := res.track
    let foundArtist := tt.artistName.getD ['?']
    let foundTitle := tt.name.getD ['?']
    let foundKey := makeTrackKey foundArtist foundTitle
    if existingKeys.contains foundKey then { p with skipped := p.skipped + 1 }
    else if res.matchType = MatchType.EXACT then
      { p with foundIds := tt.id :: p.foundIds, exactCount := p.exactCount + 1 }
    else
      { p with
          fuzzy :=
            { index := idx
              original := t
              foundArtist := foundArtist
              foundTitle := foundTitle
              tidalId := tt.id
              quality := classifyMatch t foundArtist foundTitle
              foundDurationSec := tt.duration } :: p.fuzzy }

/-- The quality counters bumped when a fuzzy match is accepted. -/
def bumpFuzzyStats (stats : MatchStats) (q : MatchQuality) : MatchStats :=
  match q with
  | MatchQuality.GOOD => { stats with fuzzyGood := stats.fuzzyGood + 1 }
  | MatchQuality.MEDIUM => { stats with fuzzyMedium := stats.fuzzyMedium + 1 }
  | MatchQuality.BAD => { stats with fuzzyBad := stats.fuzzyBad + 1 }

/-- The review branch of `sync_playlist` with a selector: every pending match
whose `index` is among the selected indices is appended to the accept list
(with its quality counted), every other one has its original track appended
to the not-found list. -/
def applyFuzzySelection (selected : List Nat) :
    List FuzzyMatch → List Int × List Track × MatchStats
  | [] => ([], [], {})
  | m :: ms =>
    let (ids, rejected, stats) := applyFuzzySelection selected ms
    if selected.contains m.index then
      (m.tidalId :: ids, rejected, bumpFuzzyStats stats m.quality)
    else (ids, m.original :: rejected, stats)

/-- The review branch of `sync_playlist` without a selector: all fuzzy
matches are accepted. -/
def acceptAllFuzzy : List FuzzyMatch → List Int × MatchStats
  | [] => ([], {})
  | m :: ms =>
    let (ids, stats) := acceptAllFuzzy ms
    (m.tidalId :: ids, bumpFuzzyStats stats m.quality)

/-- `TidalClient.add_tracks_to_playlist`: the underlying `playlist.add` call
(whose outcome is `addRes`) is wrapped in `try/except` — an error is logged
and NOT re-raised, so the method always returns normally. -/
def addTracksToPlaylist (addRes : Except ProviderError Unit) (trackIds : List Int) :
    Except ProviderError Unit :=
  if trackIds.isEmpty then Except.ok ()
  else
    match addRes with
    | Except.ok _ => Except.ok ()
    | Except.error _ => Except.ok ()

/-- The destination's existing-key set (`get_playlist_track_keys` applied to
the found playlist, empty when no playlist was found). -/
def existingKeysOf : Option (List TidalTrack) → List Str
  | some ts => ts.map (fun r => makeTrackKey (effArtist r) (effTitle r))
  | none => []

/-- The delta filter of `sync_playlist`: when the destination already has
keys, keep only the source tracks whose key is absent. -/
def tracksToSyncOf (playlistTracks : List Track) (existingKeys : List Str) :
    List Track :=
  if existingKeys.isEmpty then playlistTracks
  else
    playlistTracks.filter
      (fun t => !(existingKeys.contains (makeTrackKey t.artist t.title)))

/-- The fuzzy-review step of `sync_playlist`: with a selector, accepted
matches join the accept list and rejected ones the not-found list; without a
selector every fuzzy match is accepted. -/
def fuzzyStep (fuzzySelector : Option (List FuzzyMatch → List Nat))
    (p : PartitionOut) : List Int × List Track × MatchStats :=
  if p.fuzzy.isEmpty then (p.foundIds, p.notFound, {})
  else
    match fuzzySelector with
    | some sel =>
      let (ids2, rejected, fs) := applyFuzzySelection (sel p.fuzzy) p.fuzzy
      (p.foundIds ++ ids2, p.notFound ++ rejected, fs)
    | none =>
      let (ids2, fs) := acceptAllFuzzy p.fuzzy
      (p.foundIds ++ ids2, p.notFound, fs)

/-- `SyncService.sync_playlist` (`service.py`), over its external
collaborators: `existing` is the destination playlist's track listing when
`find_playlist_by_name` found it, `search` is `TidalClient.search_track`
(already an `Option`, a thrown search exception having been absorbed to
`None` by `_search_parallel`), `createRes` is the outcome the provider gives
to `create_playlist`, and `addRes` the outcome of the raw `playlist.add`
batch call.  The `like_tracks` and `cleanup_deleted` sub-flows are left at
their `False` defaults (they only set the `liked_tracks`/`removed_tracks`
counters).  `_search_parallel` re-sorts its results into the original input
order, so the searched list is modelled by a `map` over `tracksToSync`. -/
def syncPlaylist (targetName : Str) (playlistTracks : List Track)
    (existing : Option (List TidalTrack))
    (search : Track → Option SearchResult)
    (fuzzySelector : Option (List FuzzyMatch → List Nat))
    (createRes : Except ProviderError Unit)
    (addRes : Except ProviderError Unit) : Except ProviderError SyncResult :=
  let existingKeys := existingKeysOf existing
  let isDelta := existing.isSome
  let tracksToSync := tracksToSyncOf playlistTracks existingKeys
  let skipped0 := playlistTracks.length - tracksToSync.length
  if tracksToSync.isEmpty then
    Except.ok
      { playlistName := targetName
        totalTracks := playlistTracks.length
        foundTracks := 0
        notFoundTracks := []
        skippedTracks := skipped0
        isDelta := isDelta }
  else
    let p := partitionResults existingKeys 0 (tracksToSync.map (fun t => (t, search t)))
    let step := fuzzyStep fuzzySelector p
    let foundIds := step.1
    let notFound := step.2.1
    let fstats := step.2.2
    let createStep : Except ProviderError Unit :=
      match existing with
      | none => createRes
      | some _ => Except.ok ()
    match createStep with
    | Except.error e => Except.error e
    | Except.ok _ =>
      match addTracksToPlaylist addRes foundIds with
      | Except.error e => Except.error e
      | Except.ok _ =>
        Except.ok
          { playlistName := targetName
            totalTracks := playlistTracks.length
            foundTracks := foundIds.length
            notFoundTracks := notFound
            skippedTracks := skipped0 + p.skipped
            isDelta := isDelta
            matchStats :=
              some
                { exact := p.exactCount
                  fuzzyGood := fstats.fuzzyGood
                  fuzzyMedium := fstats.fuzzyMedium
                  fuzzyBad := fstats.fuzzyBad } }

/-- The pending-review list `sync_playlist` hands to its `fuzzy_selector`:
the fuzzy bucket of the partition step, computed over the same delta filter
and search results as `syncPlaylist` (empty on the early-return path). -/
def enginePendingList (playlistTracks : List Track)
    (existing : Option (List TidalTrack))
    (search : Track → Option SearchResult) : List FuzzyMatch :=
  let existingKeys := existingKeysOf existing
  let tracksToSync := tracksToSyncOf playlistTracks existingKeys
  if tracksToSync.isEmpty then []
  else (partitionResults existingKeys 0 (tracksToSync.map (fun t => (t, search t)))).fuzzy

/-- `quality_order` from `select_fuzzy_matches` (`sync.py`):
`{GOOD: 0, MEDIUM: 1, BAD: 2}`. -/
def qualityOrder (q : MatchQuality) : Nat :=
  match q with
  | MatchQuality.GOOD => 0
  | MatchQuality.MEDIUM => 1
  | MatchQuality.BAD => 2

/-- The comparison underlying `sorted(matches, key=lambda m: quality_order[m.quality])`. -/
def qualityLE (a b : FuzzyMatch) : Prop :=
  qualityOrder a.quality ≤ qualityOrder b.quality

instance : DecidableRel qualityLE := fun _ _ => Nat.decLe _ _

/-- `sorted_matches` from `select_fuzzy_matches` (`sync.py`): Python's
`sorted` is a stable sort by the quality key; a stable sort by a given key is
extensionally unique, and insertion sort with the reflexive key order is
stable, so it models `sorted` exactly. -/
def sortedByQuality (ms : List FuzzyMatch) : List FuzzyMatch :=
  List.insertionSort qualityLE ms

/-- Spec wording, C5: "collapses every run of whitespace to a single
space" — each maximal whitespace run becomes one space character (a
whitespace character followed by more whitespace is dropped, the last
character of a run becomes the single space). -/
def collapseWs : List Char → List Char
  | [] => []
  | [c] => if isSpaceChar c then [' '] else [c]
  | c :: d :: cs =>
    if isSpaceChar c then
      if isSpaceChar d then collapseWs (d :: cs)
      else ' ' :: collapseWs (d :: cs)
    else c :: collapseWs (d :: cs)

/-- Spec wording, C5: "trims leading and trailing whitespace". -/
def trimWs (l : List Char) : List Char :=
  ((l.dropWhile isSpaceChar).reverse.dropWhile isSpaceChar).reverse

/-- The trailing-whitespace half of `trimWs`. -/
def rtrimWs (l : List Char) : List Char :=
  (l.reverse.dropWhile isSpaceChar).reverse

/-- Alphanumeric characters (ASCII): the claim's literal class, which,
unlike Python's `\w`, does not include the underscore. -/
def isAlnumChar (c : Char) : Bool :=
  decide ((48 ≤ c.toNat ∧ c.toNat ≤ 57) ∨ (65 ≤ c.toNat ∧ c.toNat ≤ 90) ∨
    (97 ≤ c.toNat ∧ c.toNat ≤ 122))

/-- The normalization function described by claim C5's words: "replaces each
character that is not alphanumeric or whitespace with a space, lower-cases
the result, collapses every run of whitespace to a single space, and trims
leading and trailing whitespace". -/
def normalizeClaimC5 (s : Str) : Str :=
  trimWs (collapseWs (lowerStr
    (s.map (fun c => if isAlnumChar c || isSpaceChar c then c else ' '))))

/-- The normalization function described by the amended claim C5, changed
only where the counterexample forces it: the kept class is word characters
(alphanumerics and the underscore, Python's `\w`) or whitespace. -/
def normalizeAmendedC5 (s : Str) : Str :=
  trimWs (collapseWs (lowerStr (s.map replaceChar)))

/-! ### Character-level lemmas -/

theorem toNat_ofNat_valid {n : Nat} (h : n < 55296) : (Char.ofNat n).toNat = n := by
  unfold Char.ofNat
  split
  · rfl
  · omega

theorem lowerChar_toNat_of_upper {c : Char} (h : 65 ≤ c.toNat ∧ c.toNat ≤ 90) :
    (lowerChar c).toNat = c.toNat + 32 := by
  rw [lowerChar, if_pos h]
  exact toNat_ofNat_valid (by omega)

theorem lowerChar_eq_self_of_not_upper {c : Char} (h : ¬(65 ≤ c.toNat ∧ c.toNat ≤ 90)) :
    lowerChar c = c := by
  rw [lowerChar, if_neg h]

theorem lowerChar_idem (c : Char) : lowerChar (lowerChar c) = lowerChar c := by
  by_cases h : 65 ≤ c.toNat ∧ c.toNat ≤ 90
  · have ht := lowerChar_toNat_of_upper h
    exact lowerChar_eq_self_of_not_upper (by omega)
  · rw [lowerChar_eq_self_of_not_upper h]
    exact lowerChar_eq_self_of_not_upper h

theorem replaceChar_keep {c : Char} (h : (isWordChar c || isSpaceChar c) = true) :
    replaceChar c = c := by
  rw [replaceChar, if_pos h]

theorem replaceChar_drop {c : Char} (h : ¬(isWordChar c || isSpaceChar c) = true) :
    replaceChar c = ' ' := by
  rw [replaceChar, if_neg h]

theorem replaceChar_idem (c : Char) : replaceChar (replaceChar c) = replaceChar c := by
  by_cases h : (isWordChar c || isSpaceChar c) = true
  · rw [replaceChar_keep h, replaceChar_keep h]
  · rw [replaceChar_drop h]
    decide

theorem replaceChar_lowerChar_comm (c : Char) :
    replaceChar (lowerChar c) = lowerChar (replaceChar c) := by
  by_cases hu : 65 ≤ c.toNat ∧ c.toNat ≤ 90
  · have ht := lowerChar_toNat_of_upper hu
    have hw : isWordChar c = true := by simp [isWordChar]; omega
    have hw' : isWordChar (lowerChar c) = true := by simp [isWordChar]; omega
    rw [replaceChar_keep (by simp [hw']), replaceChar_keep (by simp [hw])]
  · rw [lowerChar_eq_self_of_not_upper hu]
    by_cases hk : (isWordChar c || isSpaceChar c) = true
    · rw [replaceChar_keep hk, lowerChar_eq_self_of_not_upper hu]
    · rw [replaceChar_drop hk]
      exact (lowerChar_eq_self_of_not_upper (by decide)).symm

theorem lowerChar_space : lowerChar ' ' = ' ' :=
  lowerChar_eq_self_of_not_upper (by decide)

theorem replaceChar_space : replaceChar ' ' = ' ' := by decide

theorem isSpaceChar_space : isSpaceChar ' ' = true := by decide

/-! ### Splitting and joining lemmas -/

theorem splitWsAux_append {w : List Char} (hw : ∀ c ∈ w, isSpaceChar c = false) :
    ∀ (l acc : List Char), splitWsAux (w ++ l) acc = splitWsAux l (w.reverse ++ acc) := by
  induction w with
  | nil => intro l acc; rfl
  | cons c w' ih =>
    intro l acc
    have hc : isSpaceChar c = false := hw c (List.mem_cons_self c w')
    have hw' : ∀ x ∈ w', isSpaceChar x = false := fun x hx => hw x (List.mem_cons_of_mem c hx)
    have step : splitWsAux ((c :: w') ++ l) acc = splitWsAux (w' ++ l) (c :: acc) := by
      simp only [List.cons_append, splitWsAux, hc, Bool.false_eq_true, if_false,
        List.append_eq]
    rw [step, ih hw' l (c :: acc)]
    simp

theorem splitWsAux_ne_nil {acc : List Char} (hacc : acc ≠ []) :
    ∀ l, splitWsAux l acc ≠ [] := by
  intro l
  induction l generalizing acc with
  | nil =>
    simp only [splitWsAux]
    rw [if_neg (by simpa using hacc)]
    simp
  | cons c cs ih =>
    simp only [splitWsAux]
    by_cases hc : isSpaceChar c = true
    · rw [if_pos hc, if_neg (by simpa using hacc)]
      simp
    · rw [if_neg hc]
      exact ih (by simp)

theorem splitWsAux_words {P : Char → Prop} :
    ∀ (l acc : List Char),
      (∀ c ∈ l, isSpaceChar c = false → P c) →
      (∀ c ∈ acc, isSpaceChar c = false ∧ P c) →
      ∀ w ∈ splitWsAux l acc, w ≠ [] ∧ ∀ c ∈ w, isSpaceChar c = false ∧ P c := by
  intro l
  induction l with
  | nil =>
    intro acc _ hacc w hwmem
    simp only [splitWsAux] at hwmem
    by_cases he : acc.isEmpty
    · rw [if_pos he] at hwmem
      simp at hwmem
    · rw [if_neg he] at hwmem
      simp only [List.mem_singleton] at hwmem
      subst hwmem
      refine ⟨by simpa [List.isEmpty_iff] using he, ?_⟩
      intro c hc
      exact hacc c (List.mem_reverse.1 hc)
  | cons c cs ih =>
    intro acc hl hacc w hwmem
    have hcs : ∀ x ∈ cs, isSpaceChar x = false → P x :=
      fun x hx => hl x (List.mem_cons_of_mem c hx)
    simp only [splitWsAux] at hwmem
    by_cases hc : isSpaceChar c = true
    · rw [if_pos hc] at hwmem
      by_cases he : acc.isEmpty
      · rw [if_pos he] at hwmem
        exact ih [] hcs (by simp) w hwmem
      · rw [if_neg he] at hwmem
        rcases List.mem_cons.1 hwmem with hweq | hwtail
        · subst hweq
          refine ⟨by simpa [List.isEmpty_iff] using he, ?_⟩
          intro x hx
          exact hacc x (List.mem_reverse.1 hx)
        · exact ih [] hcs (by simp) w hwtail
    · rw [if_neg hc] at hwmem
      refine ih (c :: acc) hcs ?_ w hwmem
      intro x hx
      rcases List.mem_cons.1 hx with rfl | hxa
      · exact ⟨Bool.eq_false_iff.2 hc, hl x (List.mem_cons_self x cs) (Bool.eq_false_iff.2 hc)⟩
      · exact hacc x hxa

theorem splitWs_dropWhile (l : List Char) :
    splitWs (l.dropWhile isSpaceChar) = splitWs l := by
  induction l with
  | nil => rfl
  | cons c cs ih =>
    rw [List.dropWhile_cons]
    by_cases hc : isSpaceChar c = true
    · rw [if_pos hc]
      rw [ih]
      simp only [splitWs, splitWsAux, hc, if_pos, List.isEmpty_nil, if_true]
    · rw [if_neg hc]

theorem joinWords_cons (w : List Char) (ws : List (List Char)) :
    joinWords (w :: ws) = w ++ (if ws.isEmpty then [] else ' ' :: joinWords ws) := by
  cases ws with
  | nil => simp [joinWords]
  | cons v ws' => simp [joinWords]

theorem splitWs_joinWords :
    ∀ ws : List (List Char),
      (∀ w ∈ ws, w ≠ [] ∧ ∀ c ∈ w, isSpaceChar c = false) →
      splitWs (joinWords ws) = ws := by
  intro ws
  induction ws with
  | nil => intro _; rfl
  | cons w ws' ih =>
    intro hclean
    have hw := hclean w (List.mem_cons_self w ws')
    have hws' : ∀ v ∈ ws', v ≠ [] ∧ ∀ c ∈ v, isSpaceChar c = false :=
      fun v hv => hclean v (List.mem_cons_of_mem w hv)
    cases ws' with
    | nil =>
      show splitWsAux (joinWords [w]) [] = [w]
      simp only [joinWords]
      rw [show w = w ++ [] by simp, splitWsAux_append hw.2]
      simp only [List.append_nil, splitWsAux]
      rw [if_neg (by simpa [List.isEmpty_iff] using hw.1)]
      simp
    | cons v ws'' =>
      show splitWsAux (joinWords (w :: v :: ws'')) [] = w :: v :: ws''
      simp only [joinWords]
      rw [splitWsAux_append hw.2]
      simp only [List.append_nil, splitWsAux, isSpaceChar_space, if_true]
      rw [if_neg (by simpa [List.isEmpty_iff] using hw.1)]
      rw [List.reverse_reverse]
      congr 1
      exact ih hws'

theorem mem_joinWords {c : Char} :
    ∀ {ws : List (List Char)}, c ∈ joinWords ws → (∃ w ∈ ws, c ∈ w) ∨ c = ' ' := by
  intro ws
  induction ws with
  | nil => intro h; simp [joinWords] at h
  | cons w ws' ih =>
    intro h
    rw [joinWords_cons] at h
    rcases List.mem_append.1 h with hw | htail
    · exact Or.inl ⟨w, List.mem_cons_self w ws', hw⟩
    · by_cases he : ws'.isEmpty
      · rw [if_pos he] at htail
        simp at htail
      · rw [if_neg he] at htail
        rcases List.mem_cons.1 htail with rfl | hj
        · exact Or.inr rfl
        · rcases ih hj with ⟨v, hv, hcv⟩ | hsp
          · exact Or.inl ⟨v, List.mem_cons_of_mem w hv, hcv⟩
          · exact Or.inr hsp

/-! ### Collapse/trim lemmas, bridging the spec's wording to split/join -/

theorem dropWhile_length_le (p : Char → Bool) :
    ∀ l : List Char, (l.dropWhile p).length ≤ l.length
  | [] => Nat.le_refl _
  | c :: cs => by
    rw [List.dropWhile_cons]
    split
    · exact Nat.le_succ_of_le (dropWhile_length_le p cs)
    · exact Nat.le_refl _

theorem dropWhile_eq_self_of_all {p : Char → Bool} {l : List Char}
    (h : ∀ c ∈ l, p c = false) : l.dropWhile p = l := by
  cases l with
  | nil => rfl
  | cons c cs =>
    rw [List.dropWhile_cons, if_neg (by simp [h c (List.mem_cons_self c cs)])]

theorem dropWhile_head_false {p : Char → Bool} :
    ∀ {l x : List Char} {c : Char}, l.dropWhile p = c :: x → p c = false := by
  intro l
  induction l with
  | nil => intro x c h; simp at h
  | cons a as ih =>
    intro x c h
    rw [List.dropWhile_cons] at h
    by_cases ha : p a = true
    · rw [if_pos ha] at h
      exact ih h
    · rw [if_neg ha] at h
      cases h
      exact Bool.eq_false_iff.2 ha

theorem trimWs_eq_rtrim (l : List Char) :
    trimWs l = rtrimWs (l.dropWhile isSpaceChar) := rfl

theorem trimWs_cons_space {c : Char} (hc : isSpaceChar c = true) (l : List Char) :
    trimWs (c :: l) = trimWs l := by
  unfold trimWs
  rw [List.dropWhile_cons, if_pos hc]

theorem rtrimWs_of_no_space {w : List Char} (hw : ∀ c ∈ w, isSpaceChar c = false) :
    rtrimWs w = w := by
  unfold rtrimWs
  rw [dropWhile_eq_self_of_all (fun c hc => hw c (List.mem_reverse.1 hc)),
    List.reverse_reverse]

theorem rtrimWs_append (a b : List Char) :
    rtrimWs (a ++ b) = if rtrimWs b = [] then rtrimWs a else a ++ rtrimWs b := by
  unfold rtrimWs
  rw [List.reverse_append, List.dropWhile_append]
  by_cases hb : (b.reverse.dropWhile isSpaceChar).isEmpty = true
  · rw [if_pos hb]
    rw [if_pos]
    rw [List.reverse_eq_nil_iff]
    exact List.isEmpty_iff.1 hb
  · rw [if_neg hb]
    rw [if_neg]
    · rw [List.reverse_append, List.reverse_reverse]
    · rw [List.reverse_eq_nil_iff]
      simpa [List.isEmpty_iff] using hb

theorem collapseWs_cons_nonspace {c : Char} (hc : isSpaceChar c = false)
    (cs : List Char) : collapseWs (c :: cs) = c :: collapseWs cs := by
  cases cs with
  | nil => simp [collapseWs, hc]
  | cons d cs' => simp [collapseWs, hc]

theorem collapseWs_cons_space {c : Char} (hc : isSpaceChar c = true) :
    ∀ cs : List Char,
      collapseWs (c :: cs) = ' ' :: collapseWs (cs.dropWhile isSpaceChar)
  | [] => by simp [collapseWs, hc]
  | d :: cs' => by
    by_cases hd : isSpaceChar d = true
    · show collapseWs (c :: d :: cs') = _
      have : collapseWs (c :: d :: cs') = collapseWs (d :: cs') := by
        simp [collapseWs, hc, hd]
      rw [this, collapseWs_cons_space hd cs', List.dropWhile_cons, if_pos hd]
    · have : collapseWs (c :: d :: cs') = ' ' :: collapseWs (d :: cs') := by
        simp [collapseWs, hc, hd]
      rw [this, List.dropWhile_cons, if_neg hd]

theorem collapseWs_word_append {w : List Char} (hw : ∀ c ∈ w, isSpaceChar c = false) :
    ∀ rest : List Char, collapseWs (w ++ rest) = w ++ collapseWs rest := by
  induction w with
  | nil => intro rest; rfl
  | cons c w' ih =>
    intro rest
    have hc : isSpaceChar c = false := hw c (List.mem_cons_self c w')
    have hw' : ∀ x ∈ w', isSpaceChar x = false := fun x hx => hw x (List.mem_cons_of_mem c hx)
    rw [List.cons_append, collapseWs_cons_nonspace hc, ih hw', List.cons_append]

theorem splitWs_cons_space {c : Char} (hc : isSpaceChar c = true) (cs : List Char) :
    splitWs (c :: cs) = splitWs cs := by
  simp [splitWs, splitWsAux, hc]

theorem splitWs_word_append {w : List Char} (hw_ne : w ≠ [])
    (hw : ∀ c ∈ w, isSpaceChar c = false) (rest : List Char)
    (hr : rest = [] ∨ ∃ s rest', rest = s :: rest' ∧ isSpaceChar s = true) :
    splitWs (w ++ rest) = w :: splitWs rest := by
  show splitWsAux (w ++ rest) [] = w :: splitWs rest
  rw [splitWsAux_append hw]
  rcases hr with rfl | ⟨s, rest', rfl, hs⟩
  · simp only [splitWsAux, List.append_nil]
    rw [if_neg (by simpa [List.isEmpty_iff, List.reverse_eq_nil_iff] using hw_ne)]
    simp [splitWs, splitWsAux]
  · simp only [splitWsAux, List.append_nil, hs, if_true]
    rw [if_neg (by simpa [List.isEmpty_iff, List.reverse_eq_nil_iff] using hw_ne)]
    rw [List.reverse_reverse, splitWs_cons_space hs]
    rfl

theorem splitWs_words_clean (l : List Char) :
    ∀ w ∈ splitWs l, w ≠ [] ∧ ∀ c ∈ w, isSpaceChar c = false := by
  intro w hw
  have := splitWsAux_words (P := fun _ => True) l []
    (fun _ _ _ => trivial) (by simp) w hw
  exact ⟨this.1, fun c hc => (this.2 c hc).1⟩

/-- The key bridge: the code's `" ".join(text.split())` equals the spec's
"collapse whitespace runs, then trim". -/
theorem join_split_trim_collapse :
    ∀ l : List Char, joinWords (splitWs l) = trimWs (collapseWs l)
  | [] => rfl
  | c :: cs => by
    by_cases hc : isSpaceChar c = true
    · rw [splitWs_cons_space hc, collapseWs_cons_space hc, trimWs_cons_space isSpaceChar_space,
        ← splitWs_dropWhile cs]
      exact join_split_trim_collapse (cs.dropWhile isSpaceChar)
    · have hc' : isSpaceChar c = false := Bool.eq_false_iff.2 hc
      have hsplit : c :: cs =
          (c :: cs.takeWhile (fun x => !isSpaceChar x)) ++
            cs.dropWhile (fun x => !isSpaceChar x) := by
        rw [List.cons_append, List.takeWhile_append_dropWhile]
      have hw : ∀ x ∈ c :: cs.takeWhile (fun x => !isSpaceChar x), isSpaceChar x = false := by
        intro x hx
        rcases List.mem_cons.1 hx with rfl | hxt
        · exact hc'
        · simpa using List.mem_takeWhile_imp hxt
      have hw_ne : (c :: cs.takeWhile (fun x => !isSpaceChar x)) ≠ [] := by simp
      have hr : cs.dropWhile (fun x => !isSpaceChar x) = [] ∨
          ∃ s rest', cs.dropWhile (fun x => !isSpaceChar x) = s :: rest' ∧
            isSpaceChar s = true := by
        cases hdw : cs.dropWhile (fun x => !isSpaceChar x) with
        | nil => exact Or.inl rfl
        | cons s rest' =>
          refine Or.inr ⟨s, rest', rfl, ?_⟩
          have := dropWhile_head_false hdw
          simpa using this
      rw [hsplit, splitWs_word_append hw_ne hw _ hr, collapseWs_word_append hw,
        trimWs_eq_rtrim, List.cons_append, List.dropWhile_cons,
        if_neg (by simp [hw c (List.mem_cons_self _ _)]), ← List.cons_append,
        rtrimWs_append, joinWords_cons]
      rcases hr with hnil | ⟨s, rest', heq, hs⟩
      · rw [hnil]
        simp only [collapseWs]
        rw [if_pos (show rtrimWs [] = [] from rfl), rtrimWs_of_no_space hw]
        simp [splitWs, splitWsAux, joinWords]
      · rw [heq, collapseWs_cons_space hs rest', splitWs_cons_space hs,
          ← splitWs_dropWhile rest']
        have hrec := join_split_trim_collapse (rest'.dropWhile isSpaceChar)
        cases hdw2 : rest'.dropWhile isSpaceChar with
        | nil =>
          rw [show rtrimWs (' ' :: collapseWs []) = [] from by decide, if_pos rfl,
            rtrimWs_of_no_space hw]
          simp [splitWs, splitWsAux, joinWords]
        | cons c2 x =>
          have hc2 : isSpaceChar c2 = false := dropWhile_head_false hdw2
          rw [collapseWs_cons_nonspace hc2]
          have hltrim : (c2 :: collapseWs x).dropWhile isSpaceChar =
              c2 :: collapseWs x := by
            rw [List.dropWhile_cons, if_neg (by simp [hc2])]
          rw [hdw2, collapseWs_cons_nonspace hc2, trimWs_eq_rtrim, hltrim] at hrec
          have hsplit2 : splitWs (c2 :: x) ≠ [] := by
            show splitWsAux (c2 :: x) [] ≠ []
            simp only [splitWsAux, hc2, Bool.false_eq_true, if_false]
            exact splitWsAux_ne_nil (by simp) x
          have hjoin_ne : joinWords (splitWs (c2 :: x)) ≠ [] := by
            cases hsw : splitWs (c2 :: x) with
            | nil => exact absurd hsw hsplit2
            | cons w2 ws2 =>
              have hclean := splitWs_words_clean (c2 :: x) w2 (hsw ▸ List.mem_cons_self w2 ws2)
              rw [joinWords_cons]
              simp [hclean.1]
          have hrt_ne : rtrimWs (c2 :: collapseWs x) ≠ [] := by
            rw [← hrec]
            exact hjoin_ne
          have h1 : rtrimWs (' ' :: c2 :: collapseWs x) =
              ' ' :: rtrimWs (c2 :: collapseWs x) := by
            rw [show (' ' :: c2 :: collapseWs x) = [' '] ++ (c2 :: collapseWs x) from rfl,
              rtrimWs_append, if_neg hrt_ne]
            rfl
          rw [h1, ← hrec]
          rw [if_neg (show ¬(' ' :: joinWords (splitWs (c2 :: x)) = []) by simp)]
          rw [if_neg (show ¬(splitWs (c2 :: x)).isEmpty = true by
            simp only [List.isEmpty_iff]
            exact hsplit2)]
termination_by l => l.length
decreasing_by
  · simp only [List.length_cons]
    exact Nat.lt_succ_of_le (dropWhile_length_le _ _)
  · simp only [List.length_cons]
    have h1 : (rest'.dropWhile isSpaceChar).length ≤ rest'.length :=
      dropWhile_length_le _ _
    have h2 : (s :: rest').length ≤ cs.length := by
      rw [← heq]
      exact dropWhile_length_le _ _
    simp only [List.length_cons] at h2
    omega

theorem map_eq_self_of {f : Char → Char} :
    ∀ {l : Str}, (∀ c ∈ l, f c = c) → l.map f = l := by
  intro l
  induction l with
  | nil => intro _; rfl
  | cons c cs ih =>
    intro h
    rw [List.map_cons, h c (List.mem_cons_self c cs),
      ih (fun x hx => h x (List.mem_cons_of_mem c hx))]

theorem replaceSpecial_lowerStr_comm (s : Str) :
    replaceSpecial (lowerStr s) = lowerStr (replaceSpecial s) := by
  unfold replaceSpecial lowerStr
  rw [List.map_map, List.map_map]
  congr 1
  funext c
  exact replaceChar_lowerChar_comm c

theorem normalize_chars (s : Str) :
    ∀ c ∈ normalize s, lowerChar c = c ∧ replaceChar c = c := by
  intro c hc
  unfold normalize at hc
  rcases mem_joinWords hc with ⟨w, hw, hcw⟩ | rfl
  · have hwords := splitWsAux_words (P := fun c => c ∈ replaceSpecial (lowerStr s))
      (replaceSpecial (lowerStr s)) [] (fun c hc _ => hc) (by simp) w hw
    have hct : c ∈ replaceSpecial (lowerStr s) := (hwords.2 c hcw).2
    unfold replaceSpecial lowerStr at hct
    rw [List.map_map] at hct
    obtain ⟨d, _, rfl⟩ := List.mem_map.1 hct
    constructor
    · show lowerChar (replaceChar (lowerChar d)) = replaceChar (lowerChar d)
      rw [replaceChar_lowerChar_comm d]
      exact lowerChar_idem _
    · exact replaceChar_idem _
  · exact ⟨lowerChar_space, replaceChar_space⟩

/-- C8: normalization is idempotent: `normalize(normalize(x)) == normalize(x)`
for every input string. -/
theorem C8_normalize_idempotent : ∀ s : Str, normalize (normalize s) = normalize s := by
  intro s
  have hchars := normalize_chars s
  have h1 : lowerStr (normalize s) = normalize s :=
    map_eq_self_of (fun c hc => (hchars c hc).1)
  have h2 : replaceSpecial (normalize s) = normalize s :=
    map_eq_self_of (fun c hc => (hchars c hc).2)
  show joinWords (splitWs (replaceSpecial (lowerStr (normalize s)))) = normalize s
  rw [h1, h2]
  show joinWords (splitWs (joinWords (splitWs (replaceSpecial (lowerStr s))))) = normalize s
  rw [splitWs_joinWords _ (splitWs_words_clean _)]
  rfl

/-- C5, counterexample: the claim says `normalize` replaces every character
that is not alphanumeric or whitespace with a space, but Python's `\w` class
also keeps the underscore: on `"a_b"` the code keeps the underscore while the
claim's description would produce `"a b"`. -/
theorem C5_counterexample :
    normalize ['a', '_', 'b'] = ['a', '_', 'b'] ∧
    normalizeClaimC5 ['a', '_', 'b'] = ['a', ' ', 'b'] ∧
    normalize ['a', '_', 'b'] ≠ normalizeClaimC5 ['a', '_', 'b'] :=
  ⟨by decide, by decide, by decide⟩

/-- C5, amended: for every input string, `normalize` replaces each character
that is neither alphanumeric, an underscore, nor whitespace with a space,
lower-cases the result, collapses every run of whitespace to a single space,
and trims leading and trailing whitespace; it is total and the empty input
yields the empty output. -/
theorem C5_amended_normalize_spec :
    (∀ s : Str, normalize s = normalizeAmendedC5 s) ∧ normalize [] = [] := by
  constructor
  · intro s
    show joinWords (splitWs (replaceSpecial (lowerStr s))) =
      trimWs (collapseWs (lowerStr (s.map replaceChar)))
    rw [show s.map replaceChar = replaceSpecial s from rfl,
      ← replaceSpecial_lowerStr_comm, join_split_trim_collapse]
  · rfl

/-! ### Matcher theorems -/

/-- C6: for every target track and candidate list, the matcher with
`exact_only=true` never returns a `Fuzzy` or `TitleOnly` outcome — any
returned result is `Exact` (and otherwise the result is no-match). -/
theorem C6_exact_only_never_fuzzy (t : Track) (rs : List TidalTrack)
    (res : SearchResult) (h : findBestMatch t rs true = some res) :
    res.matchType = MatchType.EXACT := by
  unfold findBestMatch at h
  by_cases he : rs.isEmpty = true
  · rw [if_pos he] at h
    exact absurd h (by simp)
  · rw [if_neg he] at h
    cases hf : rs.find? (exactPass t) with
    | some r =>
      rw [hf] at h
      rw [← Option.some.inj h]
    | none =>
      rw [hf] at h
      simp at h

theorem C6_exact_only_never_fuzzy_witness :
    (⟨⟨1, some ['b'], some ['a'], none⟩, MatchType.EXACT⟩ : SearchResult).matchType =
      MatchType.EXACT :=
  C6_exact_only_never_fuzzy ⟨['a'], ['b'], none, none⟩
    [⟨1, some ['b'], some ['a'], none⟩] _ (by decide)

/-- C7: the three passes are tried in order over the whole candidate list:
whenever some candidate satisfies the exact-pass criterion, `findBestMatch`
returns the `Exact` outcome for the first such candidate, regardless of any
fuzzy-pass-only candidates in the list. -/
theorem C7_exact_pass_precedence (t : Track) (rs : List TidalTrack) (eo : Bool)
    (h : ∃ r ∈ rs, exactPass t r = true) :
    ∃ r', rs.find? (exactPass t) = some r' ∧ exactPass t r' = true ∧
      findBestMatch t rs eo = some ⟨r', MatchType.EXACT⟩ := by
  obtain ⟨r0, hr0mem, hr0⟩ := h
  have hne : rs.isEmpty = false := by
    cases rs
    · simp at hr0mem
    · simp
  have hfind : (rs.find? (exactPass t)).isSome := List.find?_isSome.2 ⟨r0, hr0mem, hr0⟩
  obtain ⟨r', hr'⟩ := Option.isSome_iff_exists.1 hfind
  refine ⟨r', hr', List.find?_some hr', ?_⟩
  unfold findBestMatch
  rw [if_neg (by simp [hne]), hr']

theorem C7_exact_pass_precedence_witness :
    fuzzyPass ⟨['t', '1', ' ', 't', '2'], ['a', 'b'], none, none⟩
      ⟨5, some ['a', 'b', ' ', 'c', 'd'], some ['t', '1', ' ', 'x', 'x'], none⟩ = true ∧
    exactPass ⟨['t', '1', ' ', 't', '2'], ['a', 'b'], none, none⟩
      ⟨5, some ['a', 'b', ' ', 'c', 'd'], some ['t', '1', ' ', 'x', 'x'], none⟩ = false ∧
    ∃ r', ([⟨5, some ['a', 'b', ' ', 'c', 'd'], some ['t', '1', ' ', 'x', 'x'], none⟩,
        ⟨6, some ['a', 'b'], some ['t', '1', ' ', 't', '2'], none⟩] : List TidalTrack).find?
          (exactPass ⟨['t', '1', ' ', 't', '2'], ['a', 'b'], none, none⟩) = some r' ∧
      exactPass ⟨['t', '1', ' ', 't', '2'], ['a', 'b'], none, none⟩ r' = true ∧
      findBestMatch ⟨['t', '1', ' ', 't', '2'], ['a', 'b'], none, none⟩
        [⟨5, some ['a', 'b', ' ', 'c', 'd'], some ['t', '1', ' ', 'x', 'x'], none⟩,
          ⟨6, some ['a', 'b'], some ['t', '1', ' ', 't', '2'], none⟩] false =
        some ⟨r', MatchType.EXACT⟩ :=
  ⟨by decide, by decide,
    C7_exact_pass_precedence _ _ false
      ⟨⟨6, some ['a', 'b'], some ['t', '1', ' ', 't', '2'], none⟩, by decide, by decide⟩⟩

theorem wordsMatch_no_words {needle : Str} (h : splitWs (normalize needle) = []) :
    ∀ hay : Str, wordsMatch needle hay = false := by
  intro hay
  unfold wordsMatch
  rw [h]
  simp

/-- C10: a target whose normalized title (or artist) contains no words can
never produce a `Fuzzy` outcome: `words_match` returns `false` on an empty
needle word set instead of being vacuously true, so the fuzzy pass rejects
every candidate. -/
theorem C10_no_words_no_fuzzy (t : Track)
    (h : splitWs (normalize t.title) = [] ∨ splitWs (normalize t.artist) = []) :
    (∀ hay : Str, wordsMatch t.title hay = false ∨ wordsMatch t.artist hay = false) ∧
    ∀ (rs : List TidalTrack) (eo : Bool) (r : TidalTrack),
      findBestMatch t rs eo ≠ some ⟨r, MatchType.FUZZY⟩ := by
  have hfp : ∀ r : TidalTrack, fuzzyPass t r = false := by
    intro r
    unfold fuzzyPass
    rcases h with h | h
    · rw [wordsMatch_no_words h]
      rfl
    · rw [wordsMatch_no_words h]
      simp
  constructor
  · intro hay
    rcases h with h | h
    · exact Or.inl (wordsMatch_no_words h hay)
    · exact Or.inr (wordsMatch_no_words h hay)
  · intro rs eo r hcontra
    unfold findBestMatch at hcontra
    by_cases he : rs.isEmpty = true
    · rw [if_pos he] at hcontra
      simp at hcontra
    · rw [if_neg he] at hcontra
      cases hf : rs.find? (exactPass t) with
      | some r1 =>
        rw [hf] at hcontra
        simp at hcontra
      | none =>
        rw [hf] at hcontra
        cases eo with
        | true => simp at hcontra
        | false =>
          rw [if_neg (by simp)] at hcontra
          rw [List.find?_eq_none.2 (fun x _ => by simp [hfp x])] at hcontra
          cases ht : rs.find? (titlePass t) with
          | some r2 =>
            rw [ht] at hcontra
            simp at hcontra
          | none =>
            rw [ht] at hcontra
            simp at hcontra

theorem C10_no_words_no_fuzzy_witness :
    (wordsMatch ['!'] ['a', 'b'] = false ∨ wordsMatch ['a'] ['a', 'b'] = false) ∧
    findBestMatch ⟨['!'], ['a'], none, none⟩ [⟨1, some ['a'], some ['!'], none⟩] false ≠
      some ⟨⟨1, some ['a'], some ['!'], none⟩, MatchType.FUZZY⟩ :=
  ⟨(C10_no_words_no_fuzzy ⟨['!'], ['a'], none, none⟩ (Or.inl (by decide))).1 ['a', 'b'],
    (C10_no_words_no_fuzzy ⟨['!'], ['a'], none, none⟩ (Or.inl (by decide))).2 _ false _⟩

/-! ### Retry theorems -/

theorem retryFrom_succ {α : Type} (f : Nat → Except ProviderError α) (a r : Nat) :
    retryFrom f a (r + 1) =
      match f a with
      | Except.ok v => some v
      | Except.error _ => if r = 0 then none else retryFrom f (a + 1) r := rfl

theorem retryFrom_congr {α : Type} (f g : Nat → Except ProviderError α) :
    ∀ (r a : Nat), (∀ i, a ≤ i → i < a + r → f i = g i) →
      retryFrom f a r = retryFrom g a r := by
  intro r
  induction r with
  | zero => intro a _; rfl
  | succ n ih =>
    intro a hfg
    rw [retryFrom_succ, retryFrom_succ, hfg a (Nat.le_refl a) (by omega)]
    cases g a with
    | ok v => rfl
    | error e =>
      by_cases hn : n = 0
      · simp [hn]
      · rw [if_neg hn, if_neg hn]
        exact ih (a + 1) (fun i hi1 hi2 => hfg i (by omega) (by omega))

/-- C4: a retried search makes at most the configured number of attempts
(the result depends only on the first `n` attempt outcomes); a call failing
twice and succeeding on the third attempt under `max_attempts = 3` yields
that success; and a call all of whose attempts fail yields the same
"no candidates" value that an error-free search with no acceptable candidate
yields, so the caller cannot tell the two apart. -/
theorem C4_retry_semantics :
    (∀ (α : Type) (n : Nat) (f g : Nat → Except ProviderError α),
        (∀ i, 1 ≤ i → i ≤ n → f i = g i) →
        retryWithBackoff n f = retryWithBackoff n g) ∧
    (∀ (α : Type) (f : Nat → Except ProviderError α) (v : α),
        (∃ e, f 1 = Except.error e) → (∃ e, f 2 = Except.error e) →
        f 3 = Except.ok v → retryWithBackoff 3 f = some v) ∧
    (∀ attempts : Nat → Except ProviderError (Option SearchResult),
        (∀ i, ∃ e, attempts i = Except.error e) →
        searchWithQueryRetried attempts = none ∧
        searchWithQueryRetried (fun _ => Except.ok none) = none) := by
  refine ⟨?_, ?_, ?_⟩
  · intro α n f g hfg
    exact retryFrom_congr f g n 1 (fun i hi1 hi2 => hfg i hi1 (by omega))
  · intro α f v h1e h2e h3
    obtain ⟨e1, h1⟩ := h1e
    obtain ⟨e2, h2⟩ := h2e
    show retryFrom f 1 (2 + 1) = some v
    rw [retryFrom_succ, h1]
    show (if (2 : Nat) = 0 then none else retryFrom f (1 + 1) 2) = some v
    rw [if_neg (by omega)]
    show retryFrom f (1 + 1) (1 + 1) = some v
    rw [retryFrom_succ, h2]
    show (if (1 : Nat) = 0 then none else retryFrom f (2 + 1) 1) = some v
    rw [if_neg (by omega)]
    show retryFrom f (2 + 1) (0 + 1) = some v
    rw [retryFrom_succ, h3]
  · intro attempts hfail
    obtain ⟨e1, h1⟩ := hfail 1
    obtain ⟨e2, h2⟩ := hfail 2
    obtain ⟨e3, h3⟩ := hfail 3
    constructor
    · show (match retryFrom attempts 1 (2 + 1) with
        | none => none
        | some r => r) = none
      rw [retryFrom_succ, h1]
      show (match (if (2 : Nat) = 0 then none
          else retryFrom attempts (1 + 1) 2) with
        | none => none
        | some r => r) = none
      rw [if_neg (by omega)]
      show (match retryFrom attempts (1 + 1) (1 + 1) with
        | none => none
        | some r => r) = none
      rw [retryFrom_succ, h2]
      show (match (if (1 : Nat) = 0 then none
          else retryFrom attempts (2 + 1) 1) with
        | none => none
        | some r => r) = none
      rw [if_neg (by omega)]
      show (match retryFrom attempts (2 + 1) (0 + 1) with
        | none => none
        | some r => r) = none
      rw [retryFrom_succ, h3]
      rfl
    · rfl

theorem C4_retry_semantics_witness :
    retryWithBackoff 3
        (fun i => if i ≤ 3 then Except.error ProviderError.err else Except.ok (5 : Nat)) =
      retryWithBackoff 3 (fun _ => Except.error ProviderError.err) ∧
    retryWithBackoff 3
        (fun i => if i = 3 then Except.ok (42 : Nat) else Except.error ProviderError.err) =
      some 42 ∧
    searchWithQueryRetried (fun _ => Except.error ProviderError.err) = none :=
  ⟨C4_retry_semantics.1 Nat 3 _ _
      (fun i hi1 hi2 => by interval_cases i <;> rfl),
    C4_retry_semantics.2.1 Nat _ 42 ⟨ProviderError.err, rfl⟩ ⟨ProviderError.err, rfl⟩ rfl,
    (C4_retry_semantics.2.2 _ (fun i => ⟨ProviderError.err, rfl⟩)).1⟩

/-! ### Service-level lemmas and theorems -/

theorem addTracksToPlaylist_ok (addRes : Except ProviderError Unit) (ids : List Int) :
    addTracksToPlaylist addRes ids = Except.ok () := by
  unfold addTracksToPlaylist
  split
  · rfl
  · cases addRes <;> rfl

theorem partitionResults_count (ek : List Str) :
    ∀ (i : Nat) (rs : List (Track × Option SearchResult)),
      (partitionResults ek i rs).foundIds.length +
        (partitionResults ek i rs).fuzzy.length +
        (partitionResults ek i rs).notFound.length +
        (partitionResults ek i rs).skipped = rs.length := by
  intro i rs
  induction rs generalizing i with
  | nil => rfl
  | cons hd tl ih =>
    obtain ⟨t, optRes⟩ := hd
    cases optRes with
    | none =>
      simp only [partitionResults, List.length_cons]
      have := ih (i + 1)
      omega
    | some res =>
      simp only [partitionResults, List.length_cons]
      have := ih (i + 1)
      split
      · simp only []
        omega
      · split
        · simp only [List.length_cons]
          omega
        · simp only [List.length_cons]
          omega

theorem applyFuzzySelection_count (selected : List Nat) :
    ∀ ms : List FuzzyMatch,
      (applyFuzzySelection selected ms).1.length +
        (applyFuzzySelection selected ms).2.1.length = ms.length := by
  intro ms
  induction ms with
  | nil => rfl
  | cons m ms' ih =>
    rcases hx : applyFuzzySelection selected ms' with ⟨ids, rejected, stats⟩
    rw [hx] at ih
    dsimp only at ih
    simp only [applyFuzzySelection, hx]
    split
    · simp only [List.length_cons]
      omega
    · simp only [List.length_cons]
      omega

theorem acceptAllFuzzy_count :
    ∀ ms : List FuzzyMatch, (acceptAllFuzzy ms).1.length = ms.length := by
  intro ms
  induction ms with
  | nil => rfl
  | cons m ms' ih =>
    rcases hx : acceptAllFuzzy ms' with ⟨ids, stats⟩
    rw [hx] at ih
    dsimp only at ih
    simp only [acceptAllFuzzy, hx]
    simp only [List.length_cons]
    omega

theorem fuzzyStep_count (fuzzySelector : Option (List FuzzyMatch → List Nat))
    (p : PartitionOut) :
    (fuzzyStep fuzzySelector p).1.length + (fuzzyStep fuzzySelector p).2.1.length =
      p.foundIds.length + p.fuzzy.length + p.notFound.length := by
  unfold fuzzyStep
  split
  · rename_i hempty
    rw [List.isEmpty_iff] at hempty
    simp [hempty]
  · split
    · rename_i sel
      have hc := applyFuzzySelection_count (sel p.fuzzy) p.fuzzy
      rcases hx : applyFuzzySelection (sel p.fuzzy) p.fuzzy with ⟨ids2, rejected, fs⟩
      rw [hx] at hc
      dsimp only at hc
      dsimp only
      simp only [List.length_append]
      omega
    · have hc := acceptAllFuzzy_count p.fuzzy
      rcases hx : acceptAllFuzzy p.fuzzy with ⟨ids2, fs⟩
      rw [hx] at hc
      dsimp only at hc
      dsimp only
      simp only [List.length_append]
      omega

theorem tracksToSyncOf_length_le (pt : List Track) (ek : List Str) :
    (tracksToSyncOf pt ek).length ≤ pt.length := by
  unfold tracksToSyncOf
  split
  · exact Nat.le_refl _
  · exact List.length_filter_le _ _

/-- C9: every sync run accounts for each input track in exactly one bucket:
`total_tracks = skipped_tracks + found_tracks + |not_found_tracks|`, so
`synced_tracks = skipped_tracks + found_tracks` never exceeds
`total_tracks`. -/
theorem C9_accounting (name : Str) (pt : List Track)
    (ex : Option (List TidalTrack)) (search : Track → Option SearchResult)
    (sel : Option (List FuzzyMatch → List Nat)) (cr ar : Except ProviderError Unit)
    (r : SyncResult) (h : syncPlaylist name pt ex search sel cr ar = Except.ok r) :
    r.totalTracks = r.skippedTracks + r.foundTracks + r.notFoundTracks.length ∧
    r.syncedTracks ≤ r.totalTracks := by
  have key : r.totalTracks = r.skippedTracks + r.foundTracks + r.notFoundTracks.length := by
    have hlen := tracksToSyncOf_length_le pt (existingKeysOf ex)
    simp only [syncPlaylist] at h
    split at h
    · rename_i hempty
      rw [List.isEmpty_iff] at hempty
      cases h
      simp only []
      rw [hempty]
      simp
    · rename_i hne
      split at h
      · exact absurd h (by simp)
      · split at h
        · exact absurd h (by simp)
        · cases h
          simp only []
          have hcount := partitionResults_count (existingKeysOf ex) 0
            ((tracksToSyncOf pt (existingKeysOf ex)).map (fun t => (t, search t)))
          rw [List.length_map] at hcount
          have hstep := fuzzyStep_count sel
            (partitionResults (existingKeysOf ex) 0
              ((tracksToSyncOf pt (existingKeysOf ex)).map (fun t => (t, search t))))
          omega
  refine ⟨key, ?_⟩
  unfold SyncResult.syncedTracks
  omega

theorem C9_accounting_witness :
    (1 : Nat) = 0 + 0 + 1 ∧
    ({ playlistName := ['p'], totalTracks := 1, foundTracks := 0,
        notFoundTracks := [⟨['s'], ['a'], none, none⟩], skippedTracks := 0,
        isDelta := false,
        matchStats := some { exact := 0, fuzzyGood := 0, fuzzyMedium := 0, fuzzyBad := 0 },
        likedTracks := 0, removedTracks := 0 } : SyncResult).syncedTracks ≤ 1 :=
  C9_accounting ['p'] [⟨['s'], ['a'], none, none⟩] none (fun _ => none) none
    (Except.ok ()) (Except.ok ())
    { playlistName := ['p'], totalTracks := 1, foundTracks := 0,
      notFoundTracks := [⟨['s'], ['a'], none, none⟩], skippedTracks := 0,
      isDelta := false,
      matchStats := some { exact := 0, fuzzyGood := 0, fuzzyMedium := 0, fuzzyBad := 0 },
      likedTracks := 0, removedTracks := 0 } (by rfl)

/-- C1, counterexample: one source track is found exactly, the batch add
fails (`playlist.add` raises), yet `sync_playlist` returns success and
reports `found_tracks = 1`: the failure neither propagates out of the
top-level call nor stops the run from reporting the track as added. -/
theorem C1_counterexample :
    syncPlaylist ['p'] [⟨['s'], ['a'], none, none⟩] (some [])
      (fun _ => some ⟨⟨1, some ['a'], some ['s'], none⟩, MatchType.EXACT⟩) none
      (Except.ok ()) (Except.error ProviderError.err) =
    Except.ok
      { playlistName := ['p'], totalTracks := 1, foundTracks := 1,
        notFoundTracks := [], skippedTracks := 0, isDelta := true,
        matchStats := some { exact := 1, fuzzyGood := 0, fuzzyMedium := 0, fuzzyBad := 0 },
        likedTracks := 0, removedTracks := 0 } := by
  rfl

/-- C1, amended: a failing additive batch call is caught and logged inside
`add_tracks_to_playlist` and is not re-raised: `sync_playlist` returns
exactly the result it would return had the add succeeded, still reporting
the accepted tracks in `found_tracks` (only `create_playlist` failures
propagate out of the call). -/
theorem C1_amended_add_failure_swallowed (name : Str) (pt : List Track)
    (ex : Option (List TidalTrack)) (search : Track → Option SearchResult)
    (sel : Option (List FuzzyMatch → List Nat)) (cr : Except ProviderError Unit)
    (e : ProviderError) :
    syncPlaylist name pt ex search sel cr (Except.error e) =
      syncPlaylist name pt ex search sel cr (Except.ok ()) := by
  simp only [syncPlaylist]
  split
  · rfl
  · rw [addTracksToPlaylist_ok, addTracksToPlaylist_ok]

/-- C2, amended: the engine recomputes each found candidate's normalized key
but deduplicates only against the destination's pre-existing key set: a
found result whose key is in that set is counted as skipped (not added),
every other `EXACT` result is appended to the accept list, and nothing
prevents two accepted entries of the same run from sharing a normalized
key. -/
theorem C2_amended_dedup_only_preexisting (ek : List Str) :
    ∀ (i : Nat) (rs : List (Track × Option SearchResult)),
      (partitionResults ek i rs).foundIds =
        (rs.filter (fun pr =>
          match pr.2 with
          | some res =>
            !(ek.contains (makeTrackKey (res.track.artistName.getD ['?'])
              (res.track.name.getD ['?']))) &&
              decide (res.matchType = MatchType.EXACT)
          | none => false)).map
          (fun pr =>
            match pr.2 with
            | some res => res.track.id
            | none => 0) ∧
      (partitionResults ek i rs).skipped =
        rs.countP (fun pr =>
          match pr.2 with
          | some res =>
            ek.contains (makeTrackKey (res.track.artistName.getD ['?'])
              (res.track.name.getD ['?']))
          | none => false) := by
  intro i rs
  induction rs generalizing i with
  | nil => exact ⟨rfl, rfl⟩
  | cons hd tl ih =>
    obtain ⟨t, optRes⟩ := hd
    obtain ⟨ih1, ih2⟩ := ih (i + 1)
    cases optRes with
    | none =>
      simp only [partitionResults, List.filter_cons, List.countP_cons]
      simp only [Bool.false_eq_true, if_false]
      exact ⟨by simp [ih1], by simp [ih2]⟩
    | some res =>
      simp only [partitionResults, List.filter_cons, List.countP_cons]
      by_cases hk : ek.contains (makeTrackKey (res.track.artistName.getD ['?'])
          (res.track.name.getD ['?'])) = true
      · rw [if_pos hk]
        simp only [hk, Bool.not_true, Bool.false_and, Bool.false_eq_true, if_false,
          if_pos rfl]
        exact ⟨by simp [ih1], by simp [ih2]⟩
      · rw [if_neg hk]
        have hk' : ek.contains (makeTrackKey (res.track.artistName.getD ['?'])
            (res.track.name.getD ['?'])) = false := Bool.eq_false_iff.2 hk
        by_cases hm : res.matchType = MatchType.EXACT
        · rw [if_pos hm]
          simp only [hk', Bool.not_false, Bool.true_and, hm, decide_True, if_true,
            Bool.false_eq_true, if_false, List.map_cons]
          exact ⟨by simp [ih1], by simp [ih2]⟩
        · rw [if_neg hm]
          simp only [hk', Bool.not_false, Bool.true_and, decide_eq_true_eq,
            Bool.false_eq_true, if_false, if_neg hm]
          exact ⟨by simp [ih1], by simp [ih2]⟩

/-- C2, counterexample: two source tracks resolve to candidates sharing one
normalized key (and neither key is present at the destination): both are
accepted, `found_tracks = 2` and `skipped_tracks = 0`, so the final accept
list of the run contains two entries with the same normalized key. -/
theorem C2_counterexample :
    makeTrackKey (effArtist ⟨7, some ['x'], some ['y'], none⟩)
        (effTitle ⟨7, some ['x'], some ['y'], none⟩) =
      makeTrackKey (effArtist ⟨8, some ['x'], some ['y'], none⟩)
        (effTitle ⟨8, some ['x'], some ['y'], none⟩) ∧
    syncPlaylist ['p'] [⟨['t', '1'], ['a'], none, none⟩, ⟨['t', '2'], ['b'], none, none⟩]
      (some [])
      (fun t =>
        if t.title = ['t', '1'] then
          some ⟨⟨7, some ['x'], some ['y'], none⟩, MatchType.EXACT⟩
        else some ⟨⟨8, some ['x'], some ['y'], none⟩, MatchType.EXACT⟩)
      none (Except.ok ()) (Except.ok ()) =
    Except.ok
      { playlistName := ['p'], totalTracks := 2, foundTracks := 2,
        notFoundTracks := [], skippedTracks := 0, isDelta := true,
        matchStats := some { exact := 2, fuzzyGood := 0, fuzzyMedium := 0, fuzzyBad := 0 },
        likedTracks := 0, removedTracks := 0 } := by
  exact ⟨rfl, rfl⟩

theorem quality_ne_of_not_le {m b : FuzzyMatch} (h : ¬qualityLE m b) :
    ¬b.quality = m.quality := by
  intro heq
  apply h
  unfold qualityLE
  rw [heq]

theorem filter_quality_orderedInsert (q : MatchQuality) (m : FuzzyMatch) :
    ∀ l : List FuzzyMatch,
      (List.orderedInsert qualityLE m l).filter (fun x => decide (x.quality = q)) =
        (m :: l).filter (fun x => decide (x.quality = q)) := by
  intro l
  induction l with
  | nil => rfl
  | cons b l' ih =>
    rw [List.orderedInsert]
    split
    · rfl
    · rename_i hle
      by_cases hpm : m.quality = q
      · have hpb : ¬b.quality = q := fun hbq =>
          quality_ne_of_not_le hle (hbq.trans hpm.symm)
        simp [List.filter_cons, ih, hpm, hpb]
      · simp [List.filter_cons, ih, hpm]

/-- C3, counterexample: a run whose pending fuzzy list is `[Medium, Good]`
hands exactly that unsorted list to the review callback; the quality-sorted
list would be `[Good, Medium]`.  The sorting happens inside the CLI callback
(`select_fuzzy_matches`), not before the engine's invocation. -/
theorem C3_counterexample :
    enginePendingList
        [⟨['t', 't'], ['a', 'a'], none, none⟩, ⟨['u', 'u'], ['c', 'c'], none, none⟩]
        none
        (fun t =>
          if t.title = ['t', 't'] then
            some ⟨⟨1, some ['b', 'b'], some ['t', 't'], none⟩, MatchType.FUZZY⟩
          else some ⟨⟨2, some ['c', 'c'], some ['u', 'u'], none⟩, MatchType.FUZZY⟩) =
      [{ index := 0, original := ⟨['t', 't'], ['a', 'a'], none, none⟩,
          foundArtist := ['b', 'b'], foundTitle := ['t', 't'], tidalId := 1,
          quality := MatchQuality.MEDIUM, foundDurationSec := none },
        { index := 1, original := ⟨['u', 'u'], ['c', 'c'], none, none⟩,
          foundArtist := ['c', 'c'], foundTitle := ['u', 'u'], tidalId := 2,
          quality := MatchQuality.GOOD, foundDurationSec := none }] ∧
    sortedByQuality
        [{ index := 0, original := ⟨['t', 't'], ['a', 'a'], none, none⟩,
            foundArtist := ['b', 'b'], foundTitle := ['t', 't'], tidalId := 1,
            quality := MatchQuality.MEDIUM, foundDurationSec := none },
          { index := 1, original := ⟨['u', 'u'], ['c', 'c'], none, none⟩,
            foundArtist := ['c', 'c'], foundTitle := ['u', 'u'], tidalId := 2,
            quality := MatchQuality.GOOD, foundDurationSec := none }] =
      [{ index := 1, original := ⟨['u', 'u'], ['c', 'c'], none, none⟩,
          foundArtist := ['c', 'c'], foundTitle := ['u', 'u'], tidalId := 2,
          quality := MatchQuality.GOOD, foundDurationSec := none },
        { index := 0, original := ⟨['t', 't'], ['a', 'a'], none, none⟩,
          foundArtist := ['b', 'b'], foundTitle := ['t', 't'], tidalId := 1,
          quality := MatchQuality.MEDIUM, foundDurationSec := none }] ∧
    enginePendingList
        [⟨['t', 't'], ['a', 'a'], none, none⟩, ⟨['u', 'u'], ['c', 'c'], none, none⟩]
        none
        (fun t =>
          if t.title = ['t', 't'] then
            some ⟨⟨1, some ['b', 'b'], some ['t', 't'], none⟩, MatchType.FUZZY⟩
          else some ⟨⟨2, some ['c', 'c'], some ['u', 'u'], none⟩, MatchType.FUZZY⟩) ≠
      sortedByQuality
        (enginePendingList
          [⟨['t', 't'], ['a', 'a'], none, none⟩, ⟨['u', 'u'], ['c', 'c'], none, none⟩]
          none
          (fun t =>
            if t.title = ['t', 't'] then
              some ⟨⟨1, some ['b', 'b'], some ['t', 't'], none⟩, MatchType.FUZZY⟩
            else some ⟨⟨2, some ['c', 'c'], some ['u', 'u'], none⟩, MatchType.FUZZY⟩)) :=
  ⟨by decide, by decide, by decide⟩

/-- C3, amended: the engine invokes the review callback with the full pending
list in partition order (the run's outcome depends on the callback only
through its answer on exactly that list); it is the CLI callback
(`select_fuzzy_matches`) that sorts the list for display, and its sort is by
quality — `Good` before `Medium` before `Bad` — a permutation of the pending
list that is stable (the relative order within each grade is preserved). -/
theorem C3_amended_callback_sorts_stably :
    (∀ (name : Str) (pt : List Track) (ex : Option (List TidalTrack))
        (search : Track → Option SearchResult)
        (sel₁ sel₂ : List FuzzyMatch → List Nat) (cr ar : Except ProviderError Unit),
        sel₁ (enginePendingList pt ex search) = sel₂ (enginePendingList pt ex search) →
        syncPlaylist name pt ex search (some sel₁) cr ar =
          syncPlaylist name pt ex search (some sel₂) cr ar) ∧
    (∀ ms : List FuzzyMatch, List.Sorted qualityLE (sortedByQuality ms)) ∧
    (∀ ms : List FuzzyMatch, (sortedByQuality ms).Perm ms) ∧
    (∀ (ms : List FuzzyMatch) (q : MatchQuality),
        (sortedByQuality ms).filter (fun m => decide (m.quality = q)) =
          ms.filter (fun m => decide (m.quality = q))) := by
  refine ⟨?_, ?_, ?_, ?_⟩
  · intro name pt ex search sel1 sel2 cr ar h
    simp only [syncPlaylist]
    simp only [enginePendingList] at h
    split
    · rfl
    · rename_i hne
      rw [if_neg hne] at h
      simp only [fuzzyStep]
      rw [h]
  · letI : IsTotal FuzzyMatch qualityLE := ⟨fun a b => Nat.le_total _ _⟩
    letI : IsTrans FuzzyMatch qualityLE := ⟨fun _ _ _ hab hbc => Nat.le_trans hab hbc⟩
    exact fun ms => List.sorted_insertionSort qualityLE ms
  · exact fun ms => List.perm_insertionSort qualityLE ms
  · intro ms q
    induction ms with
    | nil => rfl
    | cons m ms' ih =>
      show (List.orderedInsert qualityLE m (List.insertionSort qualityLE ms')).filter _ = _
      rw [filter_quality_orderedInsert]
      rw [show List.insertionSort qualityLE ms' = sortedByQuality ms' from rfl]
      simp [List.filter_cons, ih]

theorem C3_amended_callback_sorts_stably_witness :
    syncPlaylist ['p'] [] none (fun _ => none) (some (fun _ => [])) (Except.ok ())
        (Except.ok ()) =
      syncPlaylist ['p'] [] none (fun _ => none)
        (some (fun l => l.map (fun m => m.index))) (Except.ok ()) (Except.ok ()) :=
  C3_amended_callback_sorts_stably.1 ['p'] [] none (fun _ => none) _ _
    (Except.ok ()) (Except.ok ()) rfl

end Syncer
